import Mathlib

/-!
Verification of the BigInt math module (include/functions/math.hpp).

A BigInt value is modelled as an integer. Per the data model, BigInt
division truncates toward zero and the remainder follows the sign of the
dividend, so the C++ operators / and % on BigInt are `Int.tdiv` and
`Int.tmod`. Functions that can throw are modelled with `Except`.
-/

/-- Error conditions thrown by the math module: the two logic errors of
the exponentiation engine and the invalid-argument error of sqrt. -/
inductive BigIntErr where
  | divByZero     : BigIntErr
  | zeroPowZero   : BigIntErr
  | negSqrt       : BigIntErr
  deriving DecidableEq, Repr

/-- Source: `BigInt abs(const BigInt& num) { return num < 0 ? -num : num; }` -/
def bigint_abs (num : ℤ) : ℤ :=
  if num < 0 then -num else num

/-- Source: `big_pow10(exp)` constructs the decimal text "1" followed by
`exp` zero digits and parses it; parsing decimal text folds
`acc = acc * 10 + digit` over the digits, starting from the leading 1. -/
def big_pow10 (exp : ℕ) : ℤ :=
  (List.replicate exp (0 : ℤ)).foldl (fun acc d => acc * 10 + d) 1

/-- The squaring loop of `pow(const BigInt& base, int exp)`:
`while (exp > 1) { if (exp % 2) result_odd *= result; result *= result; exp /= 2; }`
followed by `return result * result_odd;`. -/
def pow_loop_int (result result_odd exp : ℤ) : ℤ :=
  if _h : 1 < exp then
    pow_loop_int (result * result)
      (if exp.tmod 2 ≠ 0 then result_odd * result else result_odd)
      (exp.tdiv 2)
  else
    result * result_odd
termination_by exp.toNat
decreasing_by
  rw [Int.tdiv_eq_ediv (by omega) (by omega)]
  omega

/-- The squaring loop of `pow(const BigInt& base, BigInt exp)`:
identical to the int-exponent loop except for the odd test
`if (exp % 2 == 1)`. -/
def pow_loop_big (result result_odd exp : ℤ) : ℤ :=
  if _h : 1 < exp then
    pow_loop_big (result * result)
      (if exp.tmod 2 = 1 then result_odd * result else result_odd)
      (exp.tdiv 2)
  else
    result * result_odd
termination_by exp.toNat
decreasing_by
  rw [Int.tdiv_eq_ediv (by omega) (by omega)]
  omega

/-- Source: `BigInt pow(const BigInt& base, int exp)`. -/
def bigint_pow_int (base : ℤ) (exp : ℤ) : Except BigIntErr ℤ :=
  if exp < 0 then
    if base = 0 then .error .divByZero
    else .ok (if bigint_abs base = 1 then base else 0)
  else if exp = 0 then
    if base = 0 then .error .zeroPowZero
    else .ok 1
  else .ok (pow_loop_int base 1 exp)

/-- Source: `BigInt pow(const BigInt& base, BigInt exp)`. -/
def bigint_pow_big (base : ℤ) (exp : ℤ) : Except BigIntErr ℤ :=
  if exp < 0 then
    if base = 0 then .error .divByZero
    else .ok (if bigint_abs base = 1 then base else 0)
  else if exp = 0 then
    if base = 0 then .error .zeroPowZero
    else .ok 1
  else .ok (pow_loop_big base 1 exp)

theorem bigint_abs_eq (x : ℤ) : bigint_abs x = |x| := by
  unfold bigint_abs
  by_cases h : x < 0
  · rw [if_pos h, abs_of_neg h]
  · rw [if_neg h, abs_of_nonneg (by omega)]

theorem big_pow10_aux (n : ℕ) :
    ∀ a : ℤ, (List.replicate n (0 : ℤ)).foldl (fun acc d => acc * 10 + d) a
      = a * 10 ^ n := by
  induction n with
  | zero => intro a; simp
  | succ k ih =>
    intro a
    rw [List.replicate_succ, List.foldl_cons, ih (a * 10 + 0)]
    ring

theorem big_pow10_eq (exp : ℕ) : big_pow10 exp = 10 ^ exp := by
  rw [big_pow10, big_pow10_aux, one_mul]

theorem pow_loop_int_spec (exp : ℤ) (hpos : 0 < exp) (r ro : ℤ) :
    pow_loop_int r ro exp = r ^ exp.toNat * ro := by
  generalize hm : exp.toNat = m
  induction m using Nat.strong_induction_on generalizing exp r ro with
  | _ m ih =>
    rw [pow_loop_int]
    by_cases h1 : 1 < exp
    · rw [dif_pos h1]
      have he2 : exp.tdiv 2 = exp / 2 := Int.tdiv_eq_ediv (by omega) (by omega)
      have hm2 : exp.tmod 2 = exp % 2 := Int.tmod_eq_emod (by omega) (by omega)
      have h0' : 0 < exp.tdiv 2 := by rw [he2]; omega
      have hlt : (exp.tdiv 2).toNat < m := by rw [he2]; omega
      rw [ih (exp.tdiv 2).toNat hlt (exp.tdiv 2) h0' _ _ rfl]
      by_cases hpar : exp % 2 = 0
      · have hro : (if exp.tmod 2 ≠ 0 then ro * r else ro) = ro := by
          rw [hm2, hpar]; simp
        have hmk : m = 2 * (exp.tdiv 2).toNat := by rw [he2]; omega
        rw [hro, hmk, pow_mul]
        ring
      · have hro : (if exp.tmod 2 ≠ 0 then ro * r else ro) = ro * r := by
          rw [hm2]
          have : exp % 2 = 1 := by omega
          rw [this]; simp
        have hmk : m = 2 * (exp.tdiv 2).toNat + 1 := by rw [he2]; omega
        rw [hro, hmk, pow_succ, pow_mul]
        ring
    · rw [dif_neg h1]
      have he1 : exp = 1 := by omega
      subst he1
      have hm1 : m = 1 := by omega
      subst hm1
      rw [pow_one]

theorem pow_loop_big_spec (exp : ℤ) (hpos : 0 < exp) (r ro : ℤ) :
    pow_loop_big r ro exp = r ^ exp.toNat * ro := by
  generalize hm : exp.toNat = m
  induction m using Nat.strong_induction_on generalizing exp r ro with
  | _ m ih =>
    rw [pow_loop_big]
    by_cases h1 : 1 < exp
    · rw [dif_pos h1]
      have he2 : exp.tdiv 2 = exp / 2 := Int.tdiv_eq_ediv (by omega) (by omega)
      have hm2 : exp.tmod 2 = exp % 2 := Int.tmod_eq_emod (by omega) (by omega)
      have h0' : 0 < exp.tdiv 2 := by rw [he2]; omega
      have hlt : (exp.tdiv 2).toNat < m := by rw [he2]; omega
      rw [ih (exp.tdiv 2).toNat hlt (exp.tdiv 2) h0' _ _ rfl]
      by_cases hpar : exp % 2 = 0
      · have hro : (if exp.tmod 2 = 1 then ro * r else ro) = ro := by
          rw [hm2, hpar]; simp
        have hmk : m = 2 * (exp.tdiv 2).toNat := by rw [he2]; omega
        rw [hro, hmk, pow_mul]
        ring
      · have hro : (if exp.tmod 2 = 1 then ro * r else ro) = ro * r := by
          rw [hm2]
          have : exp % 2 = 1 := by omega
          rw [this]; simp
        have hmk : m = 2 * (exp.tdiv 2).toNat + 1 := by rw [he2]; omega
        rw [hro, hmk, pow_succ, pow_mul]
        ring
    · rw [dif_neg h1]
      have he1 : exp = 1 := by omega
      subst he1
      have hm1 : m = 1 := by omega
      subst hm1
      rw [pow_one]

theorem bigint_pow_int_pos (base exp : ℤ) (h : 0 < exp) :
    bigint_pow_int base exp = .ok (base ^ exp.toNat) := by
  unfold bigint_pow_int
  rw [if_neg (by omega), if_neg (by omega), pow_loop_int_spec exp h, mul_one]

theorem bigint_pow_big_pos (base exp : ℤ) (h : 0 < exp) :
    bigint_pow_big base exp = .ok (base ^ exp.toNat) := by
  unfold bigint_pow_big
  rw [if_neg (by omega), if_neg (by omega), pow_loop_big_spec exp h, mul_one]

theorem bigint_pow_int_nonneg (base exp : ℤ) (hb : base ≠ 0) (h : 0 ≤ exp) :
    bigint_pow_int base exp = .ok (base ^ exp.toNat) := by
  by_cases h0 : exp = 0
  · subst h0
    unfold bigint_pow_int
    rw [if_neg (by omega), if_pos rfl, if_neg hb]
    norm_num
  · exact bigint_pow_int_pos base exp (by omega)

theorem natAbs_tmod_lt (a b : ℤ) (h : b ≠ 0) : (a.tmod b).natAbs < b.natAbs := by
  rcases a with m | m <;> rcases b with n | n <;>
    simp only [Int.tmod, Int.natAbs_ofNat, Int.natAbs_neg]
  · exact Nat.mod_lt _ (by simpa using Int.natAbs_pos.mpr h)
  · exact Nat.mod_lt _ (Nat.succ_pos n)
  · exact Nat.mod_lt _ (by simpa using Int.natAbs_pos.mpr h)
  · exact Nat.mod_lt _ (Nat.succ_pos n)

/-- The Euclidean while loop of `gcd(BigInt, BigInt)`: starting from
`remainder = abs_num2 != 0`, repeat `remainder = abs_num1 % abs_num2;
abs_num1 = abs_num2; abs_num2 = remainder;` until the remainder is zero,
then return `abs_num1`. -/
def gcd_loop (abs_num1 abs_num2 : ℤ) : ℤ :=
  if h : abs_num2 = 0 then abs_num1
  else gcd_loop abs_num2 (abs_num1.tmod abs_num2)
termination_by abs_num2.natAbs
decreasing_by
  exact natAbs_tmod_lt abs_num1 abs_num2 h

/-- Source: `BigInt gcd(const BigInt& num1, const BigInt& num2)`. -/
def bigint_gcd (num1 num2 : ℤ) : ℤ :=
  let abs_num1 := bigint_abs num1
  let abs_num2 := bigint_abs num2
  if abs_num2 = 0 then abs_num1
  else if abs_num1 = 0 then abs_num2
  else gcd_loop abs_num1 abs_num2

/-- Source: `BigInt lcm(const BigInt& num1, const BigInt& num2)`. -/
def bigint_lcm (num1 num2 : ℤ) : ℤ :=
  if num1 = 0 ∨ num2 = 0 then 0
  else (bigint_abs (num1 * num2)).tdiv (bigint_gcd num1 num2)

theorem gcd_loop_eq (b a : ℤ) (ha : 0 ≤ a) (hb : 0 ≤ b) :
    gcd_loop a b = Int.gcd a b := by
  generalize hn : b.natAbs = n
  induction n using Nat.strong_induction_on generalizing a b with
  | _ n ih =>
    rw [gcd_loop]
    by_cases h : b = 0
    · rw [dif_pos h, h, Int.gcd_zero_right, Int.natAbs_of_nonneg ha]
    · rw [dif_neg h]
      have hbpos : 0 < b := by omega
      have hmod : a.tmod b = a % b := Int.tmod_eq_emod ha hb
      have hlt : (a.tmod b).natAbs < n := by
        rw [← hn]; exact natAbs_tmod_lt a b h
      have hnn : 0 ≤ a.tmod b := by rw [hmod]; exact Int.emod_nonneg a h
      rw [ih (a.tmod b).natAbs hlt (a.tmod b) b hb hnn rfl, hmod]
      obtain ⟨m, rfl⟩ := Int.eq_ofNat_of_zero_le ha
      obtain ⟨k, rfl⟩ := Int.eq_ofNat_of_zero_le hb
      have hcast : (m : ℤ) % (k : ℤ) = ((m % k : ℕ) : ℤ) := (Int.ofNat_emod m k).symm
      rw [hcast]
      simp only [Int.gcd_natCast_natCast]
      rw [Nat.gcd_comm k (m % k), ← Nat.gcd_rec, Nat.gcd_comm]

theorem bigint_gcd_eq (a b : ℤ) : bigint_gcd a b = Int.gcd a b := by
  unfold bigint_gcd
  simp only [bigint_abs_eq]
  by_cases hb : |b| = 0
  · rw [if_pos hb]
    have : b = 0 := abs_eq_zero.mp hb
    subst this
    rw [Int.gcd_zero_right, Int.abs_eq_natAbs]
  · rw [if_neg hb]
    by_cases ha : |a| = 0
    · rw [if_pos ha]
      have : a = 0 := abs_eq_zero.mp ha
      subst this
      rw [Int.gcd_zero_left, Int.abs_eq_natAbs]
    · rw [if_neg ha, gcd_loop_eq |b| |a| (abs_nonneg a) (abs_nonneg b)]
      simp [Int.gcd, Int.natAbs_abs]

/-- Claim C6: `gcd(a, b)` is non-negative, divides both arguments, is
independent of signs, is symmetric, is greatest among common divisors,
and satisfies `gcd(a, 0) = abs a` and `gcd(0, 0) = 0`. -/
theorem gcd_spec (a b : ℤ) :
    0 ≤ bigint_gcd a b ∧
    bigint_gcd a b ∣ a ∧
    bigint_gcd a b ∣ b ∧
    bigint_gcd a b = bigint_gcd (bigint_abs a) (bigint_abs b) ∧
    bigint_gcd a b = bigint_gcd b a ∧
    (∀ c : ℤ, c ∣ a → c ∣ b → c ∣ bigint_gcd a b) ∧
    bigint_gcd a 0 = bigint_abs a ∧
    bigint_gcd 0 0 = 0 := by
  refine ⟨?_, ?_, ?_, ?_, ?_, ?_, ?_, ?_⟩
  · rw [bigint_gcd_eq]; exact Int.natCast_nonneg _
  · rw [bigint_gcd_eq]; exact Int.gcd_dvd_left
  · rw [bigint_gcd_eq]; exact Int.gcd_dvd_right
  · rw [bigint_gcd_eq, bigint_gcd_eq, bigint_abs_eq, bigint_abs_eq]
    simp [Int.gcd, Int.natAbs_abs]
  · rw [bigint_gcd_eq, bigint_gcd_eq, Int.gcd_comm]
  · intro c hca hcb
    rw [bigint_gcd_eq]
    exact Int.dvd_gcd hca hcb
  · rw [bigint_gcd_eq, Int.gcd_zero_right, bigint_abs_eq, Int.abs_eq_natAbs]
  · rw [bigint_gcd_eq]
    norm_num

/-- Claim C7: `lcm(a, b)` is 0 when either argument is 0, and for non-zero
arguments it is non-negative and satisfies `lcm(a,b) * gcd(a,b) = abs (a*b)`. -/
theorem lcm_spec (a b : ℤ) :
    ((a = 0 ∨ b = 0) → bigint_lcm a b = 0) ∧
    (a ≠ 0 → b ≠ 0 →
      0 ≤ bigint_lcm a b ∧ bigint_lcm a b * bigint_gcd a b = bigint_abs (a * b)) := by
  constructor
  · intro h
    rw [bigint_lcm, if_pos h]
  · intro ha hb
    have hg : (0:ℤ) < bigint_gcd a b := by
      rw [bigint_gcd_eq]
      have : Int.gcd a b ≠ 0 := fun h0 => ha (Int.gcd_eq_zero_iff.mp h0).1
      omega
    have hdvd : bigint_gcd a b ∣ bigint_abs (a * b) := by
      rw [bigint_gcd_eq, bigint_abs_eq]
      exact (dvd_abs _ _).mpr (Dvd.dvd.mul_right Int.gcd_dvd_left b)
    have habs : (0:ℤ) ≤ bigint_abs (a * b) := by
      rw [bigint_abs_eq]; exact abs_nonneg _
    have hlcm : bigint_lcm a b = (bigint_abs (a * b)).tdiv (bigint_gcd a b) := by
      rw [bigint_lcm, if_neg (by tauto)]
    have htd : (bigint_abs (a * b)).tdiv (bigint_gcd a b)
        = bigint_abs (a * b) / bigint_gcd a b :=
      Int.tdiv_eq_ediv habs (by omega)
    constructor
    · rw [hlcm, htd]
      exact Int.ediv_nonneg habs (by omega)
    · rw [hlcm, htd]
      exact Int.ediv_mul_cancel hdvd

/-- Claim C6 witness at `a = 12`, `b = 18`, common divisor `c = 3`. -/
theorem gcd_spec_witness :
    0 ≤ bigint_gcd 12 18 ∧ (3:ℤ) ∣ bigint_gcd 12 18 :=
  ⟨(gcd_spec 12 18).1, (gcd_spec 12 18).2.2.2.2.2.1 3 (by norm_num) (by norm_num)⟩

/-- Claim C7 witness at `a = 4`, `b = 6` and at `a = 0`, `b = 5`. -/
theorem lcm_spec_witness :
    bigint_lcm 0 5 = 0 ∧
    bigint_lcm 4 6 * bigint_gcd 4 6 = bigint_abs (4 * 6) :=
  ⟨(lcm_spec 0 5).1 (Or.inl rfl), ((lcm_spec 4 6).2 (by norm_num) (by norm_num)).2⟩

/-- Claim C3: for a positive exponent, both pow overloads return the exact
mathematical power, i.e. the value of e-fold repeated multiplication. -/
theorem pow_pos_exact (base e : ℤ) (he : 0 < e) :
    bigint_pow_int base e = .ok (base ^ e.toNat) ∧
    bigint_pow_big base e = .ok (base ^ e.toNat) :=
  ⟨bigint_pow_int_pos base e he, bigint_pow_big_pos base e he⟩

/-- Claim C3 witness at `base = 3`, `e = 5`. -/
theorem pow_pos_exact_witness :
    0 < (5:ℤ) ∧ bigint_pow_int 3 5 = .ok 243 ∧ bigint_pow_big 3 5 = .ok 243 := by
  have h := pow_pos_exact 3 5 (by norm_num)
  have h5 : ((5:ℤ).toNat) = 5 := rfl
  rw [h5] at h
  have h243 : (3:ℤ) ^ (5:ℕ) = 243 := by norm_num
  rw [h243] at h
  exact ⟨by norm_num, h.1, h.2⟩

/-- Claim C4: `pow(base, e)` fails exactly when `base = 0` and `e ≤ 0`,
with the division-by-zero error for `e < 0` and the distinct
zero-to-the-zero error for `e = 0`; for `base ≠ 0` it returns 1 when
`e = 0`, and for `e < 0` it returns `base` when `abs base = 1`, else 0. -/
theorem pow_error_spec (base e : ℤ) :
    ((∃ err, bigint_pow_int base e = .error err) ↔ (base = 0 ∧ e ≤ 0)) ∧
    (base = 0 → e < 0 → bigint_pow_int base e = .error .divByZero) ∧
    (base = 0 → e = 0 → bigint_pow_int base e = .error .zeroPowZero) ∧
    (base ≠ 0 → e = 0 → bigint_pow_int base e = .ok 1) ∧
    (base ≠ 0 → e < 0 →
      bigint_pow_int base e = .ok (if bigint_abs base = 1 then base else 0)) := by
  refine ⟨⟨?_, ?_⟩, ?_, ?_, ?_, ?_⟩
  · rintro ⟨err, herr⟩
    unfold bigint_pow_int at herr
    by_cases he : e < 0
    · rw [if_pos he] at herr
      by_cases hb : base = 0
      · exact ⟨hb, by omega⟩
      · rw [if_neg hb] at herr
        exact absurd herr (by simp)
    · rw [if_neg he] at herr
      by_cases he0 : e = 0
      · rw [if_pos he0] at herr
        by_cases hb : base = 0
        · exact ⟨hb, by omega⟩
        · rw [if_neg hb] at herr
          exact absurd herr (by simp)
      · rw [if_neg he0] at herr
        exact absurd herr (by simp)
  · rintro ⟨hb, he⟩
    subst hb
    by_cases he0 : e = 0
    · exact ⟨.zeroPowZero, by unfold bigint_pow_int; rw [if_neg (by omega), if_pos he0, if_pos rfl]⟩
    · exact ⟨.divByZero, by unfold bigint_pow_int; rw [if_pos (by omega), if_pos rfl]⟩
  · intro hb he
    subst hb
    unfold bigint_pow_int
    rw [if_pos he, if_pos rfl]
  · intro hb he
    subst hb
    subst he
    unfold bigint_pow_int
    rw [if_neg (by omega), if_pos rfl, if_pos rfl]
  · intro hb he
    unfold bigint_pow_int
    rw [if_neg (by omega), if_pos he, if_neg hb]
  · intro hb he
    unfold bigint_pow_int
    rw [if_pos he, if_neg hb]

/-- Claim C4 witness at the four corners `(0,-1)`, `(0,0)`, `(2,0)`, `(-1,-4)`. -/
theorem pow_error_spec_witness :
    bigint_pow_int 0 (-1) = .error .divByZero ∧
    bigint_pow_int 0 0 = .error .zeroPowZero ∧
    bigint_pow_int 2 0 = .ok 1 ∧
    bigint_pow_int (-1) (-4) = .ok (-1) := by
  refine ⟨(pow_error_spec 0 (-1)).2.1 rfl (by norm_num),
          (pow_error_spec 0 0).2.2.1 rfl rfl,
          (pow_error_spec 2 0).2.2.2.1 (by norm_num) rfl, ?_⟩
  have h := (pow_error_spec (-1) (-4)).2.2.2.2 (by norm_num) (by norm_num)
  rw [h]
  norm_num [bigint_abs]

/-- Claim C8: for non-zero base and non-negative exponents, the two powers
multiply to the power at the summed exponent. -/
theorem pow_add_exact (b e1 e2 : ℤ) (hb : b ≠ 0) (h1 : 0 ≤ e1) (h2 : 0 ≤ e2) :
    ∃ v1 v2 v12 : ℤ,
      bigint_pow_int b e1 = .ok v1 ∧
      bigint_pow_int b e2 = .ok v2 ∧
      bigint_pow_int b (e1 + e2) = .ok v12 ∧
      v1 * v2 = v12 := by
  refine ⟨b ^ e1.toNat, b ^ e2.toNat, b ^ (e1 + e2).toNat,
    bigint_pow_int_nonneg _ _ hb h1, bigint_pow_int_nonneg _ _ hb h2,
    bigint_pow_int_nonneg _ _ hb (by omega), ?_⟩
  rw [← pow_add]
  congr 1
  omega

/-- Claim C8 witness at `b = 2`, `e1 = 3`, `e2 = 4`. -/
theorem pow_add_exact_witness :
    (2:ℤ) ≠ 0 ∧ (0:ℤ) ≤ 3 ∧ (0:ℤ) ≤ 4 ∧
    ∃ v1 v2 v12 : ℤ,
      bigint_pow_int 2 3 = .ok v1 ∧
      bigint_pow_int 2 4 = .ok v2 ∧
      bigint_pow_int 2 (3 + 4) = .ok v12 ∧
      v1 * v2 = v12 :=
  ⟨by norm_num, by norm_num, by norm_num,
    pow_add_exact 2 3 4 (by norm_num) (by norm_num) (by norm_num)⟩

/-- Modelled from the spec: the external collaborator method `to_string`
returns the canonical decimal representation, whose length for a positive
value is its decimal digit count. Computed with explicit fuel. -/
def dec_len : ℕ → ℕ → ℕ
  | 0, _ => 0
  | fuel + 1, n => if n < 10 then 1 else dec_len fuel (n / 10) + 1

/-- Decimal digit count of a non-negative BigInt, `num.to_string().size()`. -/
def digit_count (num : ℤ) : ℕ :=
  dec_len (num.toNat + 1) num.toNat

/-- One iteration of the Newton loop body:
`sqrt_current = (num / sqrt_prev + sqrt_prev) / 2;` (after the assignment
`sqrt_prev = sqrt_current;`, so the argument is the previous current). -/
def newton_step (num sqrt_prev : ℤ) : ℤ :=
  (num.tdiv sqrt_prev + sqrt_prev).tdiv 2

/-- The while loop of sqrt:
`while (abs(sqrt_current - sqrt_prev) > 1) { sqrt_prev = sqrt_current;
sqrt_current = (num / sqrt_prev + sqrt_prev) / 2; }`.
The fuel argument models the a-priori-unproven termination of the C++
loop: `none` means the loop has not stopped within `fuel` iterations. -/
def sqrt_loop (num : ℤ) : ℕ → ℤ → ℤ → Option ℤ
  | 0, _, _ => none
  | fuel + 1, sqrt_prev, sqrt_current =>
    if 1 < bigint_abs (sqrt_current - sqrt_prev) then
      sqrt_loop num fuel sqrt_current (newton_step num sqrt_current)
    else
      some sqrt_current

/-- Source: `BigInt sqrt(const BigInt& num)`: negative check, the four
small fast paths, then the Newton loop seeded with `sqrt_prev = -1` and
`sqrt_current = big_pow10(num.to_string().size() / 2 - 1)`. The fuel
`num.toNat + 2` is proved sufficient (and the result fuel-independent)
in `sqrt_newton_terminates`. -/
def bigint_sqrt (num : ℤ) : Except BigIntErr (Option ℤ) :=
  if num < 0 then .error .negSqrt
  else if num = 0 then .ok (some 0)
  else if num < 4 then .ok (some 1)
  else if num < 9 then .ok (some 2)
  else if num < 16 then .ok (some 3)
  else .ok (sqrt_loop num (num.toNat + 2) (-1) (big_pow10 (digit_count num / 2 - 1)))

theorem newton_step_eq (num x : ℤ) (hn : 0 ≤ num) (hx : 0 < x) :
    newton_step num x = (num / x + x) / 2 := by
  unfold newton_step
  have h1 : (0:ℤ) ≤ num / x := Int.ediv_nonneg hn (by omega)
  rw [Int.tdiv_eq_ediv hn (by omega), Int.tdiv_eq_ediv (by omega) (by omega)]

theorem newton_step_ge (num x s : ℤ) (hx : 0 < x) (hs : 0 ≤ s)
    (hlb : s * s ≤ num) : s ≤ newton_step num x := by
  have hn : 0 ≤ num := le_trans (mul_self_nonneg s) hlb
  rw [newton_step_eq num x hn hx]
  rw [Int.le_ediv_iff_mul_le (by norm_num : (0:ℤ) < 2)]
  have h1 : 2 * s - x ≤ num / x := by
    rw [Int.le_ediv_iff_mul_le hx]
    nlinarith [sq_nonneg (x - s)]
  omega

theorem newton_step_lt (num x s : ℤ) (hs : 0 ≤ s) (hx : s + 1 ≤ x)
    (hn : 0 ≤ num) (hub : num < (s + 1) * (s + 1)) :
    newton_step num x < x := by
  rw [newton_step_eq num x hn (by omega)]
  have h1 : num / x ≤ x - 1 := by
    have hnum : num ≤ x * x - 1 := by nlinarith
    have h2 : num / x ≤ (x * x - 1) / x := Int.ediv_le_ediv (by omega) hnum
    have h3 : (x * x - 1) / x = x - 1 := by
      have hx0 : (0:ℤ) < x := by omega
      have : x * x - 1 = (x - 1) + (x - 1) * x := by ring
      rw [this, Int.add_mul_ediv_right _ _ (by omega : x ≠ 0),
          Int.ediv_eq_zero_of_lt (by omega) (by omega), zero_add]
    omega
  have h2 : num / x + x ≤ 2 * x - 1 := by omega
  have h3 : (num / x + x) / 2 ≤ (2 * x - 1) / 2 := Int.ediv_le_ediv (by norm_num) h2
  omega

theorem newton_step_from_s (num s : ℤ) (hs : 1 ≤ s)
    (hub : num < (s + 1) * (s + 1)) (hn : 0 ≤ num) :
    newton_step num s ≤ s + 1 := by
  rw [newton_step_eq num s hn (by omega)]
  have h1 : num / s ≤ s + 2 := by
    have hnum : num ≤ (s + 2) * s := by nlinarith
    have h2 : num / s ≤ ((s + 2) * s) / s := Int.ediv_le_ediv (by omega) hnum
    rw [Int.mul_ediv_cancel _ (by omega : s ≠ 0)] at h2
    omega
  have h2 : num / s + s ≤ 2 * s + 2 := by omega
  have h3 : (num / s + s) / 2 ≤ (2 * s + 2) / 2 := Int.ediv_le_ediv (by norm_num) h2
  omega

theorem sqrt_loop_mono (num : ℤ) :
    ∀ (fuel fuel' : ℕ) (p c r : ℤ), fuel ≤ fuel' →
      sqrt_loop num fuel p c = some r → sqrt_loop num fuel' p c = some r := by
  intro fuel
  induction fuel with
  | zero =>
    intro fuel' p c r _ h
    exact absurd h (by simp [sqrt_loop])
  | succ f ih =>
    intro fuel' p c r hle h
    obtain ⟨f', rfl⟩ : ∃ f'', fuel' = f'' + 1 := ⟨fuel' - 1, by omega⟩
    rw [sqrt_loop] at h ⊢
    by_cases hc : 1 < bigint_abs (c - p)
    · rw [if_pos hc] at h ⊢
      exact ih f' c (newton_step num c) r (by omega) h
    · rw [if_neg hc] at h ⊢
      exact h

theorem sqrt_loop_term (num s : ℤ) (hs : 1 ≤ s)
    (hlb : s * s ≤ num) (hub : num < (s + 1) * (s + 1)) :
    ∀ (fuel : ℕ) (c p : ℤ), s ≤ c → c.toNat + 2 ≤ fuel + s.toNat →
      ∃ r, sqrt_loop num fuel p c = some r := by
  have hn : 0 ≤ num := le_trans (mul_self_nonneg s) hlb
  intro fuel
  induction fuel with
  | zero =>
    intro c p hc hf
    exact absurd hf (by omega)
  | succ f ih =>
    intro c p hc hf
    rw [sqrt_loop]
    by_cases hstop : 1 < bigint_abs (c - p)
    · rw [if_pos hstop]
      have hc0 : 0 < c := by omega
      have hge : s ≤ newton_step num c := newton_step_ge num c s hc0 (by omega) hlb
      by_cases hcs : s + 1 ≤ c
      · have hlt : newton_step num c < c := newton_step_lt num c s (by omega) hcs hn hub
        exact ih (newton_step num c) c hge (by omega)
      · have hceq : c = s := by omega
        have hle : newton_step num c ≤ s + 1 := by
          rw [hceq]; exact newton_step_from_s num s hs hub hn
        obtain ⟨f', rfl⟩ : ∃ f'', f = f'' + 1 := ⟨f - 1, by omega⟩
        rw [sqrt_loop]
        have habs : bigint_abs (newton_step num c - c) ≤ 1 := by
          rw [bigint_abs_eq, abs_le]
          constructor <;> omega
        rw [if_neg (by omega)]
        exact ⟨newton_step num c, rfl⟩
    · rw [if_neg hstop]
      exact ⟨c, rfl⟩

theorem dec_len_pos (fuel m : ℕ) (h : 0 < fuel) : 1 ≤ dec_len fuel m := by
  obtain ⟨f, rfl⟩ : ∃ f, fuel = f + 1 := ⟨fuel - 1, by omega⟩
  rw [dec_len]
  by_cases h10 : m < 10
  · rw [if_pos h10]
  · rw [if_neg h10]; omega

theorem dec_len_lb : ∀ (fuel m : ℕ), m < fuel → 1 ≤ m →
    10 ^ (dec_len fuel m - 1) ≤ m := by
  intro fuel
  induction fuel with
  | zero => intro m h _; omega
  | succ f ih =>
    intro m hm h1
    rw [dec_len]
    by_cases h10 : m < 10
    · rw [if_pos h10]
      simpa using h1
    · rw [if_neg h10]
      have hq1 : 1 ≤ m / 10 := by omega
      have hqf : m / 10 < f := by omega
      have hrec := ih (m / 10) hqf hq1
      have hd1 : 1 ≤ dec_len f (m / 10) := dec_len_pos f (m / 10) (by omega)
      calc 10 ^ (dec_len f (m / 10) + 1 - 1)
          = 10 ^ (dec_len f (m / 10) - 1) * 10 := by
            rw [← pow_succ]
            congr 1
            omega
        _ ≤ (m / 10) * 10 := Nat.mul_le_mul_right 10 hrec
        _ ≤ m := by omega

theorem seed_le (num : ℤ) (h16 : 16 ≤ num) :
    big_pow10 (digit_count num / 2 - 1) ≤ num := by
  rw [big_pow10_eq]
  set m := num.toNat with hm
  have hmn : (m : ℤ) = num := Int.toNat_of_nonneg (by omega)
  have hdc : digit_count num = dec_len (m + 1) m := rfl
  have hlb : 10 ^ (dec_len (m + 1) m - 1) ≤ m :=
    dec_len_lb (m + 1) m (by omega) (by omega)
  have hmono : (10:ℕ) ^ (dec_len (m + 1) m / 2 - 1) ≤ 10 ^ (dec_len (m + 1) m - 1) :=
    Nat.pow_le_pow_right (by norm_num) (by omega)
  have : (10:ℕ) ^ (digit_count num / 2 - 1) ≤ m := by
    rw [hdc]
    exact le_trans hmono hlb
  calc (10:ℤ) ^ (digit_count num / 2 - 1)
      = ((10 ^ (digit_count num / 2 - 1) : ℕ) : ℤ) := by push_cast; ring
    _ ≤ (m : ℤ) := by exact_mod_cast this
    _ = num := hmn

theorem seed_ge_one (k : ℕ) : 1 ≤ big_pow10 k := by
  rw [big_pow10_eq]
  calc (1:ℤ) = 1 ^ k := (one_pow k).symm
    _ ≤ 10 ^ k := pow_le_pow_left (by norm_num) (by norm_num) k

/-- Claim C9: for every `num ≥ 16` the Newton loop of sqrt terminates:
the fuel `num.toNat + 2` built into `bigint_sqrt` returns a value, and
every larger fuel returns the same value. -/
theorem sqrt_newton_terminates (num : ℤ) (h16 : 16 ≤ num) :
    ∃ r : ℤ, bigint_sqrt num = .ok (some r) ∧
      ∀ fuel : ℕ, num.toNat + 2 ≤ fuel →
        sqrt_loop num fuel (-1) (big_pow10 (digit_count num / 2 - 1)) = some r := by
  set s : ℤ := (Nat.sqrt num.toNat : ℤ) with hs
  have hmn : (num.toNat : ℤ) = num := Int.toNat_of_nonneg (by omega)
  have hlb : s * s ≤ num := by
    rw [hs, ← hmn]
    exact_mod_cast Nat.sqrt_le num.toNat
  have hub : num < (s + 1) * (s + 1) := by
    rw [hs, ← hmn]
    exact_mod_cast Nat.lt_succ_sqrt num.toNat
  have hs0 : 0 ≤ s := by rw [hs]; exact Int.natCast_nonneg _
  have hs4 : 4 ≤ s := by nlinarith
  set seed := big_pow10 (digit_count num / 2 - 1) with hseed
  have hseed1 : 1 ≤ seed := seed_ge_one _
  have hseedn : seed ≤ num := seed_le num h16
  have hn0 : (0:ℤ) ≤ num := by omega
  have hfirst : ∀ fuel : ℕ,
      sqrt_loop num (fuel + 1) (-1) seed = sqrt_loop num fuel seed (newton_step num seed) := by
    intro fuel
    rw [sqrt_loop]
    have habs : bigint_abs (seed - (-1)) = seed + 1 := by
      rw [bigint_abs_eq, sub_neg_eq_add, abs_of_nonneg (by omega)]
    rw [if_pos (by omega)]
  have hc1s : s ≤ newton_step num seed := newton_step_ge num seed s (by omega) hs0 hlb
  have hc1n : newton_step num seed ≤ num := by
    rw [newton_step_eq num seed hn0 (by omega)]
    have h1 : num / seed ≤ num := Int.ediv_le_self seed hn0
    have h2 : num / seed + seed ≤ 2 * num := by omega
    have h3 : (num / seed + seed) / 2 ≤ (2 * num) / 2 := Int.ediv_le_ediv (by norm_num) h2
    omega
  obtain ⟨r, hr⟩ := sqrt_loop_term num s (by omega) hlb hub (num.toNat + 1)
    (newton_step num seed) seed hc1s (by omega)
  refine ⟨r, ?_, ?_⟩
  · unfold bigint_sqrt
    rw [if_neg (by omega), if_neg (by omega), if_neg (by omega), if_neg (by omega),
        if_neg (by omega)]
    rw [show num.toNat + 2 = (num.toNat + 1) + 1 by omega, hfirst (num.toNat + 1), hr]
  · intro fuel hf
    obtain ⟨f, rfl⟩ : ∃ f, fuel = f + 1 := ⟨fuel - 1, by omega⟩
    rw [hfirst f]
    exact sqrt_loop_mono num (num.toNat + 1) f seed (newton_step num seed) r (by omega) hr

/-- Claim C9 witness at `num = 16`. -/
theorem sqrt_newton_terminates_witness :
    ∃ r : ℤ, bigint_sqrt 16 = .ok (some r) ∧
      ∀ fuel : ℕ, (16:ℤ).toNat + 2 ≤ fuel →
        sqrt_loop 16 fuel (-1) (big_pow10 (digit_count 16 / 2 - 1)) = some r :=
  sqrt_newton_terminates 16 (by norm_num)

/-- Claim C1 failing input: `sqrt(48)` returns 7, violating the contract
`s * s ≤ n`; the floor of the square root of 48 is 6, as the last two
conjuncts show. -/
theorem sqrt_48_bug :
    bigint_sqrt 48 = .ok (some 7) ∧ ¬ ((7:ℤ) * 7 ≤ 48) ∧
    (6:ℤ) * 6 ≤ 48 ∧ (48:ℤ) < (6 + 1) * (6 + 1) := by
  refine ⟨rfl, by norm_num, by norm_num, by norm_num⟩

/-- The decomposition loop of `is_probable_prime`:
`d = maxRand; ++d; r = 0; while (d % two == 0) { ++r; d /= two; }`.
The fuel models the a-priori-unproven termination of the while loop
(it would diverge at `d = 0`, which no call reaches); `d.natAbs` steps
are proved sufficient in `halve_loop_spec`. -/
def halve_loop : ℕ → ℤ → ℕ → ℤ × ℕ
  | 0, d, r => (d, r)
  | fuel + 1, d, r =>
    if d.tmod 2 = 0 then halve_loop fuel (d.tdiv 2) (r + 1) else (d, r)

/-- The inner squaring loop of a Miller-Rabin round:
`for (int i = 0; i < r-1; i++) { x = pow(x, 2) % *this;
if (x == *this - one) { continueWhile = 1; break; } }`;
`.ok true` models taking the break (the round passes), `.ok false`
models falling out of the loop (composite). -/
def mr_inner (n : ℤ) : ℕ → ℤ → Except BigIntErr Bool
  | 0, _ => .ok false
  | k + 1, x => do
    let p ← bigint_pow_int x 2
    let x2 := p.tmod n
    if x2 = n - 1 then .ok true else mr_inner n k x2

/-- The outer loop `while (certainty-- > 0)`: round `k` draws the witness
`rand k` (the external generator `n_random(maxRand.value)`), computes
`x = pow(randNum, d) % *this` and applies the Miller-Rabin conditions. -/
def mr_rounds (n d : ℤ) (r : ℕ) (rand : ℕ → ℤ) : ℕ → Except BigIntErr Bool
  | 0 => .ok true
  | k + 1 => do
    let p ← bigint_pow_big (rand k) d
    let x := p.tmod n
    if x = 1 ∨ x = n - 1 then mr_rounds n d r rand k
    else do
      let b ← mr_inner n (r - 1) x
      if b then mr_rounds n d r rand k else .ok false

/-- Source: `bool BigInt::is_probable_prime(size_t certainty)`; `n` is
`*this`, and `rand` supplies the draws of the external bounded random
generator (uniform on `[0, n-2]`, an out-of-scope collaborator). -/
def bigint_is_probable_prime (n : ℤ) (certainty : ℕ) (rand : ℕ → ℤ) :
    Except BigIntErr Bool :=
  if n = 1 ∨ n = 2 ∨ n = 3 then .ok true
  else if n.tmod 2 = 0 then .ok false
  else
    let dr := halve_loop (n - 1).natAbs (n - 1) 0
    mr_rounds n dr.1 dr.2 rand certainty

/-- Claim C5 counterexample: `is_probable_prime(1, 0)` does not return
false; the small-value carve-out reports 1 as prime. -/
theorem prime_one_not_false :
    bigint_is_probable_prime 1 0 (fun _ => 0) ≠ .ok false := by
  simp [bigint_is_probable_prime]

/-- Claim C5 (amended): for every certainty count and every draw sequence,
`is_probable_prime(1, certainty)` returns true. -/
theorem prime_one_true (certainty : ℕ) (rand : ℕ → ℤ) :
    bigint_is_probable_prime 1 certainty rand = .ok true := by
  unfold bigint_is_probable_prime
  rw [if_pos (Or.inl rfl)]

/-- Claim C10: with certainty 0 the witness loop body never executes, so
every odd `n ≥ 5` is reported probably prime, prime or composite alike. -/
theorem certainty_zero_true (n : ℤ) (rand : ℕ → ℤ) (h5 : 5 ≤ n)
    (hodd : ¬ n.tmod 2 = 0) :
    bigint_is_probable_prime n 0 rand = .ok true := by
  unfold bigint_is_probable_prime
  rw [if_neg (by omega), if_neg hodd]
  rfl

/-- Claim C10 witness at the composite odd value `n = 9`. -/
theorem certainty_zero_true_witness :
    (5:ℤ) ≤ 9 ∧ ¬ (9:ℤ).tmod 2 = 0 ∧
    bigint_is_probable_prime 9 0 (fun _ => 0) = .ok true :=
  ⟨by norm_num, by decide, certainty_zero_true 9 (fun _ => 0) (by norm_num) (by decide)⟩

theorem except_ok_bind {α β : Type} (v : α) (f : α → Except BigIntErr β) :
    (Except.ok v : Except BigIntErr α) >>= f = f v := rfl

/-- Claim C2 counterexample: 5 is prime and the witness 0 lies in
`[0, n-2] = [0, 3]`, yet with that witness `is_probable_prime(5, 1)`
returns false: `0^d mod 5 = 0` never reaches 1 or n-1. -/
theorem mr_rejects_prime_five :
    Prime (5:ℤ) ∧ (0:ℤ) ≤ 0 ∧ (0:ℤ) ≤ 5 - 2 ∧
    bigint_is_probable_prime 5 1 (fun _ => 0) = .ok false := by
  refine ⟨?_, le_refl 0, by norm_num, ?_⟩
  · rw [Int.prime_iff_natAbs_prime]
    norm_num
  · have e1 : bigint_pow_big 0 1 = .ok 0 := by
      have h := bigint_pow_big_pos 0 1 (by norm_num)
      simpa using h
    have e2 : bigint_pow_int 0 2 = .ok 0 := by
      have h := bigint_pow_int_pos 0 2 (by norm_num)
      simpa using h
    show bigint_is_probable_prime 5 1 (fun _ => 0) = .ok false
    unfold bigint_is_probable_prime
    rw [if_neg (by norm_num), if_neg (by decide)]
    show mr_rounds 5 1 2 (fun _ => 0) 1 = .ok false
    rw [mr_rounds, e1, except_ok_bind]
    norm_num
    rw [mr_inner, e2, except_ok_bind]
    norm_num
    rw [mr_inner]
    rfl

theorem halve_loop_spec : ∀ (fuel : ℕ) (d : ℤ) (r : ℕ), 0 < d → d.natAbs ≤ fuel →
    0 < (halve_loop fuel d r).1 ∧
    ∃ k : ℕ, (halve_loop fuel d r).2 = r + k ∧
      d = (halve_loop fuel d r).1 * 2 ^ k := by
  intro fuel
  induction fuel with
  | zero =>
    intro d r hd hf
    omega
  | succ f ih =>
    intro d r hd hf
    rw [halve_loop]
    by_cases he : d.tmod 2 = 0
    · rw [if_pos he]
      have hdvd : (2:ℤ) ∣ d := by
        have hte := Int.tmod_eq_emod (by omega : (0:ℤ) ≤ d) (by norm_num : (0:ℤ) ≤ 2)
        rw [hte] at he
        exact Int.dvd_of_emod_eq_zero he
      have htd : d.tdiv 2 = d / 2 := Int.tdiv_eq_ediv (by omega) (by norm_num)
      have hd2 : 0 < d.tdiv 2 := by rw [htd]; omega
      have hf2 : (d.tdiv 2).natAbs ≤ f := by rw [htd]; omega
      obtain ⟨hpos, k, hk, hdk⟩ := ih (d.tdiv 2) (r + 1) hd2 hf2
      refine ⟨hpos, k + 1, by omega, ?_⟩
      have h2d : 2 * (d / 2) = d := Int.mul_ediv_cancel' hdvd
      set X := (halve_loop f (d.tdiv 2) (r + 1)).1 with hX
      have hdk2 : d = 2 * (X * 2 ^ k) := by
        rw [htd] at hdk
        omega
      rw [pow_succ, hdk2]
      ring
    · rw [if_neg he]
      exact ⟨hd, 0, by omega, by norm_num⟩

theorem intCast_emod_zmod (p : ℕ) (a : ℤ) :
    ((a % (p:ℤ) : ℤ) : ZMod p) = (a : ZMod p) :=
  (ZMod.intCast_eq_intCast_iff _ _ _).mpr (Int.emod_emod a p)

theorem int_eq_of_zmod_eq (p : ℕ) (x y : ℤ) (hx : 0 ≤ x) (hx2 : x < (p:ℤ))
    (hy : 0 ≤ y) (hy2 : y < (p:ℤ)) (h : (x : ZMod p) = (y : ZMod p)) : x = y := by
  have hmod : x % (p:ℤ) = y % (p:ℤ) := (ZMod.intCast_eq_intCast_iff _ _ _).mp h
  have h1 : x % (p:ℤ) = x := Int.emod_eq_of_lt hx hx2
  have h2 : y % (p:ℤ) = y := Int.emod_eq_of_lt hy hy2
  omega

theorem pow_two_pow_descent (p : ℕ) [Fact p.Prime] (b : ZMod p) :
    ∀ r : ℕ, b ^ 2 ^ r = 1 → b = 1 ∨ ∃ j, j < r ∧ b ^ 2 ^ j = -1 := by
  intro r
  induction r with
  | zero =>
    intro h
    left
    simpa using h
  | succ k ih =>
    intro h
    rw [pow_succ, pow_mul, pow_two] at h
    rcases mul_self_eq_one_iff.mp h with h1 | h1
    · rcases ih h1 with h0 | ⟨j, hj, hjm⟩
      · exact Or.inl h0
      · exact Or.inr ⟨j, by omega, hjm⟩
    · exact Or.inr ⟨k, by omega, h1⟩

theorem mr_inner_succ (n x : ℤ) (k : ℕ) :
    mr_inner n (k + 1) x =
      if (x ^ 2).tmod n = n - 1 then .ok true
      else mr_inner n k ((x ^ 2).tmod n) := by
  have e : bigint_pow_int x 2 = .ok (x ^ 2) := by
    have h := bigint_pow_int_pos x 2 (by norm_num)
    simpa using h
  rw [mr_inner, e, except_ok_bind]

theorem mr_inner_hits (n : ℤ) : ∀ (k : ℕ) (x : ℤ) (j : ℕ), 1 ≤ j → j ≤ k →
    (fun y : ℤ => (y ^ 2).tmod n)^[j] x = n - 1 → mr_inner n k x = .ok true := by
  intro k
  induction k with
  | zero =>
    intro x j h1 h2 _
    omega
  | succ m ih =>
    intro x j h1 h2 hit
    rw [mr_inner_succ]
    by_cases hx : (x ^ 2).tmod n = n - 1
    · rw [if_pos hx]
    · rw [if_neg hx]
      have hj2 : 2 ≤ j := by
        by_contra hj
        have hj1 : j = 1 := by omega
        subst hj1
        rw [Function.iterate_one] at hit
        exact hx (by simpa using hit)
      have hjsplit : j = (j - 1) + 1 := by omega
      rw [hjsplit, Function.iterate_succ_apply] at hit
      exact ih _ (j - 1) (by omega) (by omega) (by simpa using hit)

theorem iter_sq_cast (n : ℤ) (p : ℕ) (hnp : (p:ℤ) = n) (hn : 0 < n)
    (x0 : ℤ) (hx0 : 0 ≤ x0) (hx0n : x0 < n) :
    ∀ j : ℕ, 0 ≤ (fun y : ℤ => (y ^ 2).tmod n)^[j] x0 ∧
      (fun y : ℤ => (y ^ 2).tmod n)^[j] x0 < n ∧
      (((fun y : ℤ => (y ^ 2).tmod n)^[j] x0 : ℤ) : ZMod p)
        = ((x0 : ℤ) : ZMod p) ^ 2 ^ j := by
  intro j
  induction j with
  | zero =>
    refine ⟨hx0, hx0n, ?_⟩
    simp
  | succ k ih =>
    obtain ⟨h0, h1, hc⟩ := ih
    rw [Function.iterate_succ_apply']
    set y := (fun y : ℤ => (y ^ 2).tmod n)^[k] x0 with hy
    refine ⟨?_, ?_, ?_⟩
    · show 0 ≤ (y ^ 2).tmod n
      exact Int.tmod_nonneg n (by positivity)
    · show (y ^ 2).tmod n < n
      exact Int.tmod_lt_of_pos _ hn
    · show (((y ^ 2).tmod n : ℤ) : ZMod p) = ((x0 : ℤ) : ZMod p) ^ 2 ^ (k + 1)
      rw [Int.tmod_eq_emod (by positivity) (by omega), ← hnp, intCast_emod_zmod]
      push_cast
      rw [hc, ← pow_mul, ← pow_succ]

theorem mr_round_passes (n : ℤ) (p : ℕ) (hpp : p.Prime) (hnp : (p:ℤ) = n)
    (h5 : 5 ≤ n) (d : ℤ) (hd : 0 < d) (r : ℕ)
    (hdec : n - 1 = d * 2 ^ r) (a : ℤ) (ha1 : 1 ≤ a) (ha2 : a ≤ n - 2) :
    (a ^ d.toNat).tmod n = 1 ∨ (a ^ d.toNat).tmod n = n - 1 ∨
    mr_inner n (r - 1) ((a ^ d.toNat).tmod n) = .ok true := by
  haveI : Fact p.Prime := ⟨hpp⟩
  set D := d.toNat with hD
  have hDd : (D:ℤ) = d := Int.toNat_of_nonneg (by omega)
  have hn0 : 0 < n := by omega
  set x0 := (a ^ D).tmod n with hx0def
  have hx0nn : 0 ≤ x0 := Int.tmod_nonneg n (by positivity)
  have hx0lt : x0 < n := Int.tmod_lt_of_pos _ hn0
  have hx0cast : ((x0 : ℤ) : ZMod p) = ((a : ℤ) : ZMod p) ^ D := by
    rw [hx0def, Int.tmod_eq_emod (by positivity) (by omega), ← hnp, intCast_emod_zmod]
    push_cast
    rfl
  have hane : ((a : ℤ) : ZMod p) ≠ 0 := by
    intro h0
    have hdvd : (p:ℤ) ∣ a := (ZMod.intCast_zmod_eq_zero_iff_dvd a p).mp h0
    have := Int.le_of_dvd (by omega) hdvd
    omega
  have hferm : ((a : ℤ) : ZMod p) ^ (p - 1) = 1 := ZMod.pow_card_sub_one_eq_one hane
  have hp1 : p - 1 = D * 2 ^ r := by
    have h2r : ((2:ℤ)) ^ r = ((2 ^ r : ℕ) : ℤ) := by push_cast; ring
    have hcast : (p:ℤ) - 1 = (D:ℤ) * ((2 ^ r : ℕ) : ℤ) := by
      rw [hnp, hDd, ← h2r]
      exact hdec
    have hcast2 : (p:ℤ) - 1 = ((D * 2 ^ r : ℕ) : ℤ) := by
      rw [hcast]
      push_cast
      ring
    omega
  have hchain : (((a : ℤ) : ZMod p) ^ D) ^ 2 ^ r = 1 := by
    rw [← pow_mul, ← hp1]
    exact hferm
  have hcastn1 : ((n - 1 : ℤ) : ZMod p) = -1 := by
    rw [← hnp]
    push_cast [ZMod.natCast_self]
    ring
  rcases pow_two_pow_descent p (((a : ℤ) : ZMod p) ^ D) r hchain with h1 | ⟨j, hjr, hjm⟩
  · left
    apply int_eq_of_zmod_eq p x0 1 hx0nn (by omega) (by norm_num) (by omega)
    rw [hx0cast, h1]
    norm_num
  · by_cases hj0 : j = 0
    · right; left
      subst hj0
      simp only [pow_zero, pow_one] at hjm
      apply int_eq_of_zmod_eq p x0 (n - 1) hx0nn (by omega) (by omega) (by omega)
      rw [hx0cast, hjm, hcastn1]
    · right; right
      obtain ⟨hj0', hj1', hjc⟩ := iter_sq_cast n p hnp hn0 x0 hx0nn hx0lt j
      have hxj : (fun y : ℤ => (y ^ 2).tmod n)^[j] x0 = n - 1 := by
        apply int_eq_of_zmod_eq p _ (n - 1) hj0' (by omega) (by omega) (by omega)
        rw [hjc, hx0cast, hjm, hcastn1]
      exact mr_inner_hits n (r - 1) x0 j (by omega) (by omega) hxj

theorem mr_rounds_true (n : ℤ) (p : ℕ) (hpp : p.Prime) (hnp : (p:ℤ) = n)
    (h5 : 5 ≤ n) (d : ℤ) (hd : 0 < d) (r : ℕ) (hdec : n - 1 = d * 2 ^ r)
    (rand : ℕ → ℤ) (hw : ∀ i, 1 ≤ rand i ∧ rand i ≤ n - 2) :
    ∀ certainty : ℕ, mr_rounds n d r rand certainty = .ok true := by
  intro certainty
  induction certainty with
  | zero => rfl
  | succ k ih =>
    rw [mr_rounds, bigint_pow_big_pos (rand k) d hd, except_ok_bind]
    obtain ⟨ha1, ha2⟩ := hw k
    by_cases hx : ((rand k) ^ d.toNat).tmod n = 1 ∨ ((rand k) ^ d.toNat).tmod n = n - 1
    · rw [if_pos hx]
      exact ih
    · rw [if_neg hx]
      rcases mr_round_passes n p hpp hnp h5 d hd r hdec (rand k) ha1 ha2
        with h | h | h
      · exact absurd (Or.inl h) hx
      · exact absurd (Or.inr h) hx
      · rw [h, except_ok_bind, if_pos rfl]
        exact ih

/-- Claim C2 (amended): for every prime `n ≥ 2`, every certainty count,
and every sequence of witnesses drawn from `[1, n-2]` (witness 0, though
drawable, refutes the original claim - see the counterexample),
`is_probable_prime(n, certainty)` returns true. -/
theorem mr_prime_true (n : ℤ) (hp : Prime n) (h2 : 2 ≤ n) (certainty : ℕ)
    (rand : ℕ → ℤ) (hw : ∀ i, 1 ≤ rand i ∧ rand i ≤ n - 2) :
    bigint_is_probable_prime n certainty rand = .ok true := by
  by_cases hsmall : n = 1 ∨ n = 2 ∨ n = 3
  · unfold bigint_is_probable_prime
    rw [if_pos hsmall]
  · have hn4 : n ≠ 4 := by
      intro h4
      rw [h4] at hp
      have hnot : ¬ Prime (4:ℤ) := by
        rw [Int.prime_iff_natAbs_prime]
        norm_num
      exact hnot hp
    have h5 : 5 ≤ n := by omega
    set p := n.toNat with hpdef
    have hnp : (p:ℤ) = n := Int.toNat_of_nonneg (by omega)
    have hpp : p.Prime := by
      have hnat := Int.prime_iff_natAbs_prime.mp hp
      have habs : n.natAbs = p := by omega
      rwa [habs] at hnat
    have hodd : n.tmod 2 = 1 := by
      have hp2 : p ≠ 2 := by omega
      have hoddp : p % 2 = 1 := Nat.odd_iff.mp (hpp.odd_of_ne_two hp2)
      have hmod : n % 2 = 1 := by omega
      rw [Int.tmod_eq_emod (by omega) (by norm_num), hmod]
    unfold bigint_is_probable_prime
    rw [if_neg hsmall, if_neg (by omega)]
    have hd0 : 0 < n - 1 := by omega
    obtain ⟨hdpos, k, hk, hdk⟩ := halve_loop_spec (n - 1).natAbs (n - 1) 0 hd0 le_rfl
    have hdec : n - 1
        = (halve_loop (n - 1).natAbs (n - 1) 0).1
          * 2 ^ (halve_loop (n - 1).natAbs (n - 1) 0).2 := by
      rw [show (halve_loop (n - 1).natAbs (n - 1) 0).2 = k by omega]
      exact hdk
    exact mr_rounds_true n p hpp hnp h5 _ hdpos _ hdec rand hw certainty

/-- Claim C2 (amended) witness at `n = 5`, certainty 2, all witnesses 2. -/
theorem mr_prime_true_witness :
    Prime (5:ℤ) ∧ bigint_is_probable_prime 5 2 (fun _ => 2) = .ok true := by
  have hp : Prime (5:ℤ) := by
    rw [Int.prime_iff_natAbs_prime]
    norm_num
  exact ⟨hp, mr_prime_true 5 hp (by norm_num) 2 (fun _ => 2)
    (fun i => ⟨by norm_num, by norm_num⟩)⟩
